import Mathlib

/-!
Verification of the NoteVerse versioned-content engine.

Shallow embedding of the versioning core of the NoteVerse notebook system:
the git-backed Repository Store wrapper (`src/backend/src/services/gitService.ts`),
the commit/branch orchestration controllers
(`src/backend/src/controllers/commitController.ts`,
`src/backend/src/controllers/branchController.ts`) and the metadata index
records (`src/backend/src/models/Commit.ts`, `Branch.ts`).

The underlying git primitives (simple-git) are external to the repository;
they are modelled here at the interface boundary the spec describes (§4.1
Repository Store): a repository is a list of commits (newest first), a set of
branch names, and a working tree.  Commit hashes are modelled as freshly
allocated naturals (content-addressed hashes are unique within a repository).
All other definitions are direct translations of the TypeScript source.
-/

deriving instance DecidableEq for Except

namespace NoteVerse

/-! ## String helpers

`String.splitOn` and friends in core Lean use well-founded recursion which the
kernel cannot evaluate, so line/path splitting is done with structurally
recursive functions over character lists.  `splitOnChar` mirrors JavaScript
`String.prototype.split` with a one-character separator (on the empty string it
returns one empty segment, as JS does). -/

def splitOnChar (sep : Char) : List Char → List (List Char)
  | [] => [[]]
  | c :: rest =>
    let r := splitOnChar sep rest
    if c = sep then [] :: r
    else
      match r with
      | g :: gs => (c :: g) :: gs
      | [] => [[c]]

/-- JavaScript `s.split(sep)` for a single-character separator. -/
def strSplit (s : String) (sep : Char) : List String :=
  (splitOnChar sep s.toList).map (fun cs => String.mk cs)

/-- JavaScript `Array.prototype.join(sep)`. -/
def joinSep (sep : String) : List String → String
  | [] => ""
  | [x] => x
  | x :: y :: rest => x ++ sep ++ joinSep sep (y :: rest)

/-- JavaScript `String.prototype.startsWith`. -/
def strStartsWith (s pat : String) : Bool :=
  pat.toList.isPrefixOf s.toList

/-- Line count of a file's content: `content.split('\n').length`
(commitController.ts line 96). -/
def lineCount (content : String) : Nat :=
  (strSplit content '\n').length

/-! ## Association lists (working trees, committed trees, file maps)

A file tree snapshot and the JS `Map` in `parseDiffByFile` are both
insertion-ordered key/value lists where setting an existing key replaces its
value in place. -/

def setAssoc : List (String × String) → String → String → List (String × String)
  | [], k, v => [(k, v)]
  | (k', v') :: rest, k, v =>
    if k' == k then (k, v) :: rest else (k', v') :: setAssoc rest k v

def lookupAssoc : List (String × String) → String → Option String
  | [], _ => none
  | (k', v') :: rest, k => if k' == k then some v' else lookupAssoc rest k

/-! ## Repository Store model (gitService.ts) -/

/-- A `(path, content)` pair passed to `GitService.commit`. -/
structure CommitFile where
  path : String
  content : String
  deriving Repr, DecidableEq

/-- One commit in the underlying git repository: its hash, the hash of its
parent (absent for the first commit) and the full committed tree snapshot. -/
structure RepoCommit where
  hash : Nat
  parent : Option Nat
  tree : List (String × String)
  deriving Repr, DecidableEq

/-- State of one notebook's git repository.  `commits` is the history of the
current head, newest first.  Branch heads are not tracked separately: no claim
under verification depends on per-branch content isolation. -/
structure Repo where
  initialized : Bool
  commits : List RepoCommit
  branches : List String
  current : String
  working : List (String × String)
  deriving Repr, DecidableEq

def Repo.empty : Repo :=
  { initialized := false, commits := [], branches := [], current := "", working := [] }

/-- Tree of the current head commit (empty if the repository has no commits). -/
def headTree (r : Repo) : List (String × String) :=
  match r.commits.head? with
  | some c => c.tree
  | none => []

/-- Hash of the current head commit, as `git log({maxCount: 1}).latest.hash`
returns it (absent when the repository has no commits). -/
def headHash (r : Repo) : Option Nat :=
  (r.commits.head?).map (fun c => c.hash)

inductive GitError where
  /-- Error `'No changes to commit'` (gitService.ts line 147). -/
  | nothingToCommit
  /-- Error `'Cannot create branch: repository has no commits yet. ...'`
  (gitService.ts lines 66/70). -/
  | noCommitsYet
  /-- git `'not a commit'` failure for an unresolvable source ref. -/
  | sourceNotFound
  deriving Repr, DecidableEq

/-- Model of `GitService.commit` (gitService.ts lines 109-157): read the current head
hash as the parent, write each file to the working tree, stage exactly those
paths, fail with `NothingToCommit` when nothing staged differs from the head
tree, otherwise create the new commit.  The post-state is returned even on
failure since the working-tree writes have already happened.  The new hash is
freshly allocated (modelled as the current commit count). -/
def svcCommit (r : Repo) (files : List CommitFile) :
    Repo × Except GitError (Nat × Option Nat) :=
  let parentHash := headHash r
  let working := files.foldl (fun w f => setAssoc w f.path f.content) r.working
  let base := headTree r
  let staged := files.filter (fun f => lookupAssoc base f.path != some f.content)
  if staged.isEmpty then
    ({ r with working := working }, .error .nothingToCommit)
  else
    let newTree := files.foldl (fun t f => setAssoc t f.path f.content) base
    let h := r.commits.length
    ({ r with
        working := working,
        commits := ⟨h, parentHash, newTree⟩ :: r.commits },
      .ok (h, parentHash))

/-- Content of the seed README written by `GitService.initRepo`
(gitService.ts line 46). -/
def readmeContent : String := "# Notebook\n\nInitial commit"

def addBranchName (bs : List String) (n : String) : List String :=
  if bs.contains n then bs else n :: bs

/-- Model of `GitService.initRepo` (gitService.ts lines 30-56): initialize the
repository, rename the current branch to `main`, write the seed `README.md`,
stage it and commit `'Initial commit'`.  The write/stage/commit mechanics are
those of `svcCommit`. -/
def svcInitRepo (r : Repo) : Repo × Except GitError Unit :=
  let r1 := { r with initialized := true, current := "main" }
  match svcCommit r1 [⟨"README.md", readmeContent⟩] with
  | (r2, .ok _) => ({ r2 with branches := addBranchName r2.branches "main" }, .ok ())
  | (r2, .error e) => (r2, .error e)

/-- Model of `GitService.checkoutBranch` (gitService.ts lines 78-96): silently succeed
when the repository has no commits; otherwise check the branch out (a missing
branch is a git error). -/
def svcCheckoutBranch (r : Repo) (name : String) : Repo × Except GitError Unit :=
  if r.commits.isEmpty then (r, .ok ())
  else if r.branches.contains name then ({ r with current := name }, .ok ())
  else (r, .error .sourceNotFound)

/-- Model of `GitService.createBranch` (gitService.ts lines 58-76): fail with
`NoCommitsYet` when the repository has zero commits, otherwise
`git checkout -b name fromBranch` (failing when the source ref does not
resolve). -/
def svcCreateBranch (r : Repo) (name fromBranch : String) :
    Repo × Except GitError Unit :=
  if r.commits.isEmpty then (r, .error .noCommitsYet)
  else if r.branches.contains fromBranch then
    ({ r with branches := addBranchName r.branches name, current := name }, .ok ())
  else (r, .error .sourceNotFound)

/-! ## Diff model (GitService.getDiff)

`getDiff` shells out to `git diff from to` and returns unified-diff text.  It
is modelled at the semantic level the spec gives it (§4.1 Diff, §4.2
GetCommitDiff step 2): the diff between the trees the two refs denote, as a
list of per-file entries.  The well-known empty-tree object
`4b825dc642cb6eb9a060e54bf8d69288fbee4904` that the controller passes for
parentless commits denotes the empty tree. -/

inductive GitRef where
  /-- A commit hash. -/
  | commit (h : Nat)
  /-- The well-known git empty-tree object
  (`4b825dc642cb6eb9a060e54bf8d69288fbee4904`). -/
  | emptyTree
  deriving Repr, DecidableEq

/-- Resolve a ref to the tree it denotes (`none` for an unknown hash). -/
def treeOfRef (r : Repo) : GitRef → Option (List (String × String))
  | .commit h => (r.commits.find? (fun c => c.hash == h)).map (fun c => c.tree)
  | .emptyTree => some []

inductive DiffKind where
  | added
  | deleted
  | modified
  deriving Repr, DecidableEq

structure FileDiff where
  path : String
  kind : DiffKind
  deriving Repr, DecidableEq

/-- Per-file diff status between two trees for one path. -/
def diffEntry (fromTree toTree : List (String × String)) (p : String) :
    Option FileDiff :=
  match lookupAssoc fromTree p, lookupAssoc toTree p with
  | none, none => none
  | none, some _ => some ⟨p, .added⟩
  | some _, none => some ⟨p, .deleted⟩
  | some a, some b => if a == b then none else some ⟨p, .modified⟩

/-- Model of `GitService.getDiff` (gitService.ts lines 206-209): `git diff`,
failing when either ref does not resolve. -/
def svcGetDiff (r : Repo) (fromRef toRef : GitRef) :
    Except GitError (List FileDiff) :=
  match treeOfRef r fromRef, treeOfRef r toRef with
  | some ft, some tt =>
    let paths := (ft.map Prod.fst) ++ ((tt.map Prod.fst).filter
      (fun p => !(ft.map Prod.fst).contains p))
    .ok (paths.filterMap (diffEntry ft tt))
  | _, _ => .error .sourceNotFound

/-! ## Metadata Index records (models/Commit.ts, models/Branch.ts) -/

/-- One entry of a commit's `filesChanged` list (models/Commit.ts
`FileChangeSchema`). -/
structure FileChange where
  path : String
  additions : Nat
  deletions : Nat
  deriving Repr, DecidableEq

/-- A persisted Commit record (models/Commit.ts `CommitSchema`), restricted to
one notebook's scope. -/
structure CommitRecord where
  hash : Nat
  message : String
  description : Option String
  author : String
  branch : String
  parentHash : Option Nat
  filesChanged : List FileChange
  additions : Nat
  deletions : Nat
  deriving Repr, DecidableEq

/-- A persisted Branch record (models/Branch.ts `BranchSchema`), restricted to
one notebook's scope. -/
structure BranchRecord where
  name : String
  description : Option String
  isDefault : Bool
  lastCommitHash : Option Nat
  deriving Repr, DecidableEq

/-- Combined state of one notebook: its git repository plus the Metadata Index
records that reference it.  `dbCommits` is newest-first (mirroring the
newest-first query order). -/
structure AppState where
  repo : Repo
  dbBranches : List BranchRecord
  dbCommits : List CommitRecord
  deriving Repr, DecidableEq

def findBranchRecord (bs : List BranchRecord) (name : String) :
    Option BranchRecord :=
  bs.find? (fun b => b.name == name)

/-- Update `branch.lastCommitHash = commitHash; await branch.save()`
(commitController.ts lines 118-119): update the fetched (first-matching)
branch record. -/
def setLastCommit : List BranchRecord → String → Nat → List BranchRecord
  | [], _, _ => []
  | b :: rest, n, h =>
    if b.name == n then { b with lastCommitHash := some h } :: rest
    else b :: setLastCommit rest n h

/-! ## CreateCommit (commitController.ts `createCommit`)

The request body as JSON: a file's `content` may be absent, which the model
distinguishes from the empty string with an `Option`. -/

/-- One element of the request's `files` array.  An absent or non-string
`path` is collapsed to `""` (both fail the same checks). -/
structure RawFile where
  path : String
  content : Option String
  deriving Repr, DecidableEq

structure CommitRequest where
  message : String
  description : Option String
  branch : String
  files : List RawFile
  deriving Repr, DecidableEq

/-- Validator `notEmpty()` applied to an optional value: absent, `null` and `''` all
fail. -/
def contentNonEmpty : Option String → Bool
  | some s => !(s == "")
  | none => false

/-- The `createCommitValidation` express-validator chain (commitController.ts
lines 9-16): `message` non-empty, `branch` non-empty, `files` a non-empty
array, every `files.*.path` non-empty and every `files.*.content` non-empty.
Run by the route before the handler body. -/
def expressValidationOk (req : CommitRequest) : Bool :=
  !(req.message == "") && !(req.branch == "") &&
  decide (1 ≤ req.files.length) &&
  req.files.all (fun f => !(f.path == "") && contentNonEmpty f.content)

/-- The handler's own checks (commitController.ts lines 31-46): `files`
non-empty, every file has a truthy string `path`, and every file's `content`
is not `undefined`/`null` — the empty string is explicitly allowed
(`'Each file must have content (can be empty string)'`). -/
def manualValidationOk (req : CommitRequest) : Bool :=
  !req.files.isEmpty &&
  req.files.all (fun f => !(f.path == "") && !(f.content == none))

inductive CommitError where
  /-- Status 400 from either validation layer. -/
  | validationFailed
  /-- Status 404 `'Branch "..." not found'`. -/
  | branchNotFound
  /-- Status 500 carrying the git error's message. -/
  | gitFailure (e : GitError)
  deriving Repr, DecidableEq

/-- Model of `createCommit` (commitController.ts lines 18-131), scoped to one notebook
with the notebook and user lookups (which the claims do not touch) resolved:
validation, branch-record lookup, lazy `initRepo`, best-effort checkout
(errors swallowed, lines 78-83), `gitService.commit`, then the Commit record
with per-file line-count additions and zero deletions, and the branch
record's `lastCommitHash` update.  Returns the post-state together with the
result. -/
def createCommit (st : AppState) (req : CommitRequest) :
    AppState × Except CommitError CommitRecord :=
  if !expressValidationOk req then (st, .error .validationFailed)
  else if !manualValidationOk req then (st, .error .validationFailed)
  else
    match findBranchRecord st.dbBranches req.branch with
    | none => (st, .error .branchNotFound)
    | some _ =>
      let files : List CommitFile :=
        req.files.map (fun f => ⟨f.path, f.content.getD ""⟩)
      let (r1, initRes) :=
        if st.repo.initialized then (st.repo, Except.ok ())
        else svcInitRepo st.repo
      match initRes with
      | .error e => ({ st with repo := r1 }, .error (.gitFailure e))
      | .ok _ =>
        let r2 := (svcCheckoutBranch r1 req.branch).1
        match svcCommit r2 files with
        | (r3, .error e) => ({ st with repo := r3 }, .error (.gitFailure e))
        | (r3, .ok (commitHash, parentHash)) =>
          let filesChanged := files.map (fun f =>
            FileChange.mk f.path (lineCount f.content) 0)
          let totalAdditions := filesChanged.foldl (fun sum f => sum + f.additions) 0
          let commit : CommitRecord :=
            { hash := commitHash
              message := req.message
              description := req.description
              author := "user"
              branch := req.branch
              parentHash := parentHash
              filesChanged := filesChanged
              additions := totalAdditions
              deletions := 0 }
          ({ repo := r3
             dbBranches := setLastCommit st.dbBranches req.branch commitHash
             dbCommits := commit :: st.dbCommits },
            .ok commit)

/-! ## CreateNotebook (notebookController.ts `createNotebook`) -/

/-- Model of `createNotebook` (notebookController.ts): persist the notebook, run
`gitService.initRepo()` on a fresh location, then create the default `main`
Branch record (no `lastCommitHash`). -/
def createNotebook : AppState × Except GitError Unit :=
  match svcInitRepo Repo.empty with
  | (r, .ok _) =>
    ({ repo := r
       dbBranches := [{ name := "main", description := none,
                        isDefault := true, lastCommitHash := none }]
       dbCommits := [] },
      .ok ())
  | (r, .error e) =>
    ({ repo := r, dbBranches := [], dbCommits := [] }, .error e)

/-! ## CreateBranch (branchController.ts `createBranch`) -/

inductive BranchError where
  /-- Status 400 `'Branch name is required'`. -/
  | nameRequired
  /-- Status 400 `'Branch already exists'`. -/
  | alreadyExists
  /-- Status 404 `'Source branch "..." not found'`. -/
  | sourceNotFound
  /-- Status 400 `'Cannot create branch yet. Please make an initial commit ...'`
  (branchController.ts lines 81-85, for git errors whose message contains
  `'no commits yet'` or `'not a commit'`). -/
  | cannotCreateYet
  /-- Status 500 for any other failure. -/
  | internal (e : GitError)
  deriving Repr, DecidableEq

/-- Model of `createBranch` (branchController.ts lines 13-107), scoped to one notebook:
reject an empty name, reject an existing Branch record, resolve the source
branch record (`fromBranch || 'main'` — JS falsiness sends both absent and
empty to `'main'`), ensure the repository is initialized *and has at least one
commit* (running `initRepo` — which seeds a commit — when either fails, lines
58-75), call `gitService.createBranch`, mapping its no-commits / bad-source
errors to the 400 `cannotCreateYet` response, and finally persist the Branch
record carrying the source record's `lastCommitHash`. -/
def createBranchC (st : AppState) (name : String) (fromBranch : Option String)
    (descr : Option String) : AppState × Except BranchError BranchRecord :=
  if name == "" then (st, .error .nameRequired)
  else if (findBranchRecord st.dbBranches name).isSome then
    (st, .error .alreadyExists)
  else
    let sourceBranchName :=
      match fromBranch with
      | some s => if s == "" then "main" else s
      | none => "main"
    match findBranchRecord st.dbBranches sourceBranchName with
    | none => (st, .error .sourceNotFound)
    | some src =>
      let (r1, initRes) :=
        if !st.repo.initialized then svcInitRepo st.repo
        else if st.repo.commits.isEmpty || !st.repo.branches.contains "main" then
          -- `getCommitHistory('main', 1)` found no commit (or errored):
          -- re-run initRepo (branchController.ts lines 64-75).
          svcInitRepo st.repo
        else (st.repo, Except.ok ())
      match initRes with
      | .error e => ({ st with repo := r1 }, .error (.internal e))
      | .ok _ =>
        match svcCreateBranch r1 name sourceBranchName with
        | (r2, .error .noCommitsYet) =>
          ({ st with repo := r2 }, .error .cannotCreateYet)
        | (r2, .error .sourceNotFound) =>
          -- git says `'... is not a commit ...'`: same 400 response.
          ({ st with repo := r2 }, .error .cannotCreateYet)
        | (r2, .error e) => ({ st with repo := r2 }, .error (.internal e))
        | (r2, .ok _) =>
          let rec_ : BranchRecord :=
            { name := name, description := descr, isDefault := false,
              lastCommitHash := src.lastCommitHash }
          ({ st with repo := r2, dbBranches := st.dbBranches ++ [rec_] },
            .ok rec_)

/-! ## GetCommitDiff (commitController.ts `getCommitDiff`) -/

/-- The response's per-file element (commitController.ts lines 260-269):
path and counts from the Commit record, plus the matching diff segment when
the diff engine produced one. -/
structure FileDiffEntry where
  path : String
  additions : Nat
  deletions : Nat
  diff : Option FileDiff
  deriving Repr, DecidableEq

inductive DiffError where
  | commitNotFound
  deriving Repr, DecidableEq

/-- Model of `getCommitDiff` (commitController.ts lines 177-280), scoped to one
notebook: resolve the Commit record by hash, diff the parent hash (or the
empty-tree object `4b825dc...` when no parent) against the commit's own hash
— a failing diff degrades to an empty one (lines 210-213) — and attach to
each `filesChanged` entry its per-file segment. -/
def getCommitDiffC (st : AppState) (h : Nat) :
    Except DiffError (List FileDiff × CommitRecord × List FileDiffEntry) :=
  match st.dbCommits.find? (fun c => c.hash == h) with
  | none => .error .commitNotFound
  | some commit =>
    let fromRef :=
      match commit.parentHash with
      | some p => GitRef.commit p
      | none => GitRef.emptyTree
    let diff :=
      match svcGetDiff st.repo fromRef (GitRef.commit h) with
      | .ok d => d
      | .error _ => []
    let files := commit.filesChanged.map (fun fc =>
      FileDiffEntry.mk fc.path fc.additions fc.deletions
        (diff.find? (fun e => e.path == fc.path)))
    .ok (diff, commit, files)

/-! ## parseDiffByFile (commitController.ts lines 216-255)

The per-file splitter scans the diff text line by line; a line starting with
`diff --git` closes the open segment and opens a new one keyed by the path
captured by the regex `/diff --git a\/(.+?) b\//`. -/

def isHeader (l : String) : Bool := strStartsWith l "diff --git"

/-- The lazy capture `(.+?)` of the regex, positioned just after
`diff --git a/`: consume at least one character, then the shortest run of
further characters after which ` b/` follows. -/
def captureGo : List Char → List Char → Option String
  | _, [] => none
  | acc, c :: r =>
    if [' ', 'b', '/'].isPrefixOf (c :: r) then some (String.mk acc.reverse)
    else captureGo (c :: acc) r

def extractCapture : List Char → Option String
  | [] => none
  | c :: r => captureGo [c] r

/-- Rest of the input after the first occurrence of `pat` (`none` when `pat`
never occurs). -/
def afterFirst (pat : List Char) : List Char → Option (List Char)
  | [] => none
  | c :: r =>
    if pat.isPrefixOf (c :: r) then some ((c :: r).drop pat.length)
    else afterFirst pat r

/-- Capture group 1 of the regex on a header line: the shortest
non-empty run after the first `diff --git a/` that is followed by ` b/`.
(If no ` b/` follows the first `diff --git a/` anywhere, none follows a later
occurrence either, so trying later match positions — as the regex engine
would — can never succeed and is omitted.) -/
def extractDiffPath (line : String) : Option String :=
  match afterFirst ("diff --git a/".toList) line.toList with
  | none => none
  | some rest => extractCapture rest

/-- Loop state of `parseDiffByFile`: the key of the open segment (`''` when
none is open), its collected lines, and the file map built so far. -/
structure ParseState where
  currentFile : String
  currentDiff : List String
  fileMap : List (String × String)
  deriving Repr, DecidableEq

/-- Flush the open segment into the map
(`if (currentFile && currentDiff.length > 0) fileMap.set(...)`). -/
def saveCurrent (st : ParseState) : List (String × String) :=
  if st.currentFile != "" && !st.currentDiff.isEmpty then
    setAssoc st.fileMap st.currentFile (joinSep "\n" st.currentDiff)
  else st.fileMap

/-- One iteration of the `for (const line of lines)` loop. -/
def parseStep (st : ParseState) (line : String) : ParseState :=
  if isHeader line then
    { currentFile := (extractDiffPath line).getD ""
      currentDiff := [line]
      fileMap := saveCurrent st }
  else if st.currentFile != "" then
    { st with currentDiff := st.currentDiff ++ [line] }
  else st

/-- Model of `parseDiffByFile` (commitController.ts lines 216-255). -/
def parseDiffByFile (diffText : String) : List (String × String) :=
  if diffText == "" then []
  else saveCurrent ((strSplit diffText '\n').foldl parseStep ⟨"", [], []⟩)

/-! ### Segment-level reference formulation

`segmentsOf` names the structure the claim describes: the line list is cut at
each header line; lines before the first header are dropped; each segment is
keyed by the path extracted from its header (or `''` when extraction fails,
in which case the segment is discarded). -/

def segmentsOf : List String → List (String × List String)
  | [] => []
  | l :: rest =>
    if isHeader l then
      ((extractDiffPath l).getD "", l :: rest.takeWhile (fun x => !isHeader x))
        :: segmentsOf (rest.dropWhile (fun x => !isHeader x))
    else segmentsOf rest
termination_by lines => lines.length
decreasing_by
  all_goals simp only [List.length_cons]
  · exact Nat.lt_succ_of_le ((List.dropWhile_sublist _).length_le)
  · exact Nat.lt_succ_self _

/-- Store one segment in the map, mirroring `saveCurrent`'s guard. -/
def saveSeg (m : List (String × String)) (key : String) (seg : List String) :
    List (String × String) :=
  if key != "" && !seg.isEmpty then setAssoc m key (joinSep "\n" seg) else m

/-- The claim's formulation of the splitter: empty text gives the empty map;
otherwise the header-cut segments, discarding keyless ones. -/
def parseDiffSpec (diffText : String) : List (String × String) :=
  if diffText == "" then []
  else (segmentsOf (strSplit diffText '\n')).foldl (fun m s => saveSeg m s.1 s.2) []

/-! ## File-tree builder (GitService.getFileTree, gitService.ts lines 275-304)

The fold that turns the flat `ls-tree` path list into a nested tree. -/

inductive NodeType where
  | file
  | directory
  deriving Repr, DecidableEq

/-- A node of the tree (`FileTreeItem` in gitService.ts): leaf nodes carry no
children array, directory nodes carry one. -/
inductive FileTreeItem where
  | mk (name : String) (path : String) (type : NodeType)
      (children : Option (List FileTreeItem))

def FileTreeItem.name : FileTreeItem → String
  | .mk n _ _ _ => n

def FileTreeItem.path : FileTreeItem → String
  | .mk _ p _ _ => p

def FileTreeItem.type : FileTreeItem → NodeType
  | .mk _ _ t _ => t

def FileTreeItem.children : FileTreeItem → Option (List FileTreeItem)
  | .mk _ _ _ c => c

/-- Lookup `currentLevel.find(item => item.name === part)`. -/
def findName (level : List FileTreeItem) (part : String) : Option FileTreeItem :=
  level.find? (fun it => it.name == part)

/-- Replace the first item named `n` (the TS code mutates the found item in
place). -/
def replaceName : List FileTreeItem → String → FileTreeItem → List FileTreeItem
  | [], _, _ => []
  | it :: rest, n, newIt =>
    if it.name == n then newIt :: rest else it :: replaceName rest n newIt

/-- The inner `for (let i = 0; i < parts.length; i++)` loop of `getFileTree`:
`done` holds the segments already consumed (for path reconstruction via
`parts.slice(0, i+1).join('/')`).  A missing segment is appended (a leaf for
the last segment, a directory with fresh children otherwise); an existing
directory is descended into; an existing child without a children array
leaves `currentLevel` unchanged, so the remaining segments continue at the
same level. -/
def insertParts : List FileTreeItem → List String → List String → List FileTreeItem
  | level, _, [] => level
  | level, done, part :: rest =>
    let isFile := rest.isEmpty
    let curPath := joinSep "/" (done ++ [part])
    match findName level part with
    | none =>
      if isFile then level ++ [.mk part curPath .file none]
      else
        level ++ [.mk part curPath .directory
          (some (insertParts [] (done ++ [part]) rest))]
    | some existing =>
      if isFile then level
      else
        match existing.children with
        | some cs =>
          replaceName level part
            (.mk existing.name existing.path existing.type
              (some (insertParts cs (done ++ [part]) rest)))
        | none => insertParts level (done ++ [part]) rest

/-- Split `filePath.split('/')`. -/
def splitPath (p : String) : List String := strSplit p '/'

def insertPathStep (t : List FileTreeItem) (p : String) : List FileTreeItem :=
  insertParts t [] (splitPath p)

/-- Function `BuildTree`: the fold of `getFileTree` over the flat path list, starting
from the empty tree. -/
def buildTree (paths : List String) : List FileTreeItem :=
  paths.foldl insertPathStep []

/-! # Theorems -/

/-! ## Helper lemmas -/

/-- Checkout never touches the commit history. -/
lemma svcCheckoutBranch_commits (r : Repo) (n : String) :
    ((svcCheckoutBranch r n).1).commits = r.commits := by
  unfold svcCheckoutBranch
  split
  · rfl
  · split <;> rfl

lemma headTree_eq_of_commits {r r' : Repo} (h : r.commits = r'.commits) :
    headTree r = headTree r' := by
  unfold headTree
  rw [h]

/-- A request accepted by the express-validator chain also passes the
handler's own file checks (the manual layer is strictly weaker). -/
lemma manual_of_express {req : CommitRequest}
    (h : expressValidationOk req = true) : manualValidationOk req = true := by
  simp only [expressValidationOk, Bool.and_eq_true, List.all_eq_true,
    decide_eq_true_eq] at h
  obtain ⟨⟨⟨_, _⟩, hlen⟩, hall⟩ := h
  simp only [manualValidationOk, Bool.and_eq_true, List.all_eq_true]
  refine ⟨?_, fun f hf => ?_⟩
  · cases hfs : req.files with
    | nil => rw [hfs] at hlen; simp at hlen
    | cons a l => simp
  · obtain ⟨hp, hc⟩ := hall f hf
    refine ⟨hp, ?_⟩
    cases hco : f.content with
    | none => rw [hco] at hc; simp [contentNonEmpty] at hc
    | some s => simp

/-! ## C10: parent hash returned by Store.Commit -/

/-- Hashes are allocated as fresh indices, so every commit's hash is below the
current commit count. -/
def RepoWF (r : Repo) : Prop := ∀ c ∈ r.commits, c.hash < r.commits.length

/-- C10: for every `Store.Commit` call that returns, the returned `parentHash`
equals the hash of the repository's head commit as read before the new
commit is created, is absent exactly when the repository had zero commits at
the start of the call, and never equals the returned new commit hash. -/
theorem svcCommit_parentHash_head (r r' : Repo) (files : List CommitFile)
    (hsh : Nat) (p : Option Nat) (hwf : RepoWF r)
    (h : svcCommit r files = (r', .ok (hsh, p))) :
    p = headHash r ∧ (p = none ↔ r.commits = []) ∧ p ≠ some hsh := by
  simp only [svcCommit] at h
  split at h
  · simp at h
  · simp only [Prod.mk.injEq, Except.ok.injEq] at h
    obtain ⟨-, hh, hp⟩ := h
    subst hh hp
    refine ⟨rfl, ?_, ?_⟩
    · unfold headHash
      cases r.commits <;> simp
    · cases hc : r.commits with
      | nil => simp [headHash, hc]
      | cons c t =>
        have hlt := hwf c (by rw [hc]; exact List.mem_cons_self ..)
        rw [hc] at hlt
        simp only [List.length_cons] at hlt
        simp only [headHash, hc, List.head?_cons, List.length_cons]
        intro hcontra
        have : c.hash = t.length + 1 := by
          simpa using hcontra
        omega

/-- Concrete instantiation of `svcCommit_parentHash_head`: committing on a
one-commit repository returns parent hash `some 0`, distinct from the new
hash `1`. -/
def repoOneCommit : Repo :=
  { initialized := true
    commits := [⟨0, none, [("notes.md", "# Hi")]⟩]
    branches := ["main"]
    current := "main"
    working := [("notes.md", "# Hi")] }

theorem svcCommit_parentHash_head_witness :
    some 0 = headHash repoOneCommit ∧ (some 0 = none ↔ repoOneCommit.commits = []) ∧
      (some 0 : Option Nat) ≠ some 1 := by
  have h := svcCommit_parentHash_head repoOneCommit
    (svcCommit repoOneCommit [⟨"notes.md", "# Hi\nmore"⟩]).1
    [⟨"notes.md", "# Hi\nmore"⟩] 1 (some 0)
    (by unfold RepoWF; decide) (by decide)
  exact h

/-! ## C3: validation of CreateCommit requests -/

/-- A request whose single file carries the empty string as content. -/
def reqEmptyContent : CommitRequest :=
  { message := "update", description := none, branch := "main",
    files := [{ path := "notes.md", content := some "" }] }

/-- C3 (code bug): the spec — and the handler's own check, whose error
message reads `'Each file must have content (can be empty string)'` — accept
a file whose content is the empty string, but the express-validator chain
`body('files.*.content').notEmpty()` that the route runs first rejects it,
so the request fails with `ValidationFailed` (no Store call happens, the
state is returned unchanged) instead of proceeding to the Store. -/
theorem createCommit_emptyContent_validationFailed :
    expressValidationOk reqEmptyContent = false ∧
    manualValidationOk reqEmptyContent = true ∧
    ∀ st : AppState, createCommit st reqEmptyContent = (st, .error .validationFailed) := by
  refine ⟨by decide, by decide, fun st => ?_⟩
  unfold createCommit
  rw [show expressValidationOk reqEmptyContent = false from by decide]
  rfl

/-! ## C1: committing identical content -/

/-- C1: when every file of a CreateCommit request carries exactly the content
already committed at the head of the (initialized) repository, staging
detects no change: the operation fails with `NothingToCommit`, the
repository's commit count is unchanged, no Commit record is persisted, and
the Branch records (hence `lastCommitHash`) are untouched. -/
theorem createCommit_identicalContent_nothingToCommit
    (st : AppState) (req : CommitRequest) (br : BranchRecord)
    (hval : expressValidationOk req = true)
    (hbr : findBranchRecord st.dbBranches req.branch = some br)
    (hinit : st.repo.initialized = true)
    (hsame : ∀ f ∈ req.files,
      lookupAssoc (headTree st.repo) f.path = some (f.content.getD "")) :
    (createCommit st req).2 = .error (.gitFailure .nothingToCommit) ∧
    (createCommit st req).1.repo.commits = st.repo.commits ∧
    (createCommit st req).1.dbCommits = st.dbCommits ∧
    (createCommit st req).1.dbBranches = st.dbBranches := by
  have hman := manual_of_express hval
  have hr2c : ((svcCheckoutBranch st.repo req.branch).1).commits = st.repo.commits :=
    svcCheckoutBranch_commits st.repo req.branch
  have hhead : headTree ((svcCheckoutBranch st.repo req.branch).1) = headTree st.repo :=
    headTree_eq_of_commits hr2c
  have hstaged :
      (req.files.map (fun f => CommitFile.mk f.path (f.content.getD ""))).filter
        (fun f => lookupAssoc (headTree ((svcCheckoutBranch st.repo req.branch).1)) f.path
          != some f.content) = [] := by
    rw [List.filter_eq_nil_iff]
    intro f hf
    obtain ⟨g, hg, rfl⟩ := List.mem_map.mp hf
    rw [hhead]
    simp [hsame g hg]
  rcases hsv : svcCommit ((svcCheckoutBranch st.repo req.branch).1)
      (req.files.map (fun f => CommitFile.mk f.path (f.content.getD ""))) with ⟨r3, res⟩
  have hsv' := hsv
  simp only [svcCommit, hstaged, List.isEmpty_nil, if_true, Prod.mk.injEq] at hsv'
  obtain ⟨hr3, hres⟩ := hsv'
  subst hres
  simp only [createCommit, hval, hman, Bool.not_true, Bool.false_eq_true, if_false, hbr,
    hinit, if_true, hsv]
  refine ⟨trivial, ?_, trivial, trivial⟩
  show r3.commits = st.repo.commits
  rw [← hr3]
  exact hr2c

/-- Concrete instantiation of `createCommit_identicalContent_nothingToCommit`:
re-committing `notes.md` with its already-committed content is rejected and
changes nothing. -/
def stOneCommit : AppState :=
  { repo := repoOneCommit
    dbBranches := [{ name := "main", description := none,
                     isDefault := true, lastCommitHash := some 0 }]
    dbCommits := [] }

def reqIdentical : CommitRequest :=
  { message := "again", description := none, branch := "main",
    files := [{ path := "notes.md", content := some "# Hi" }] }

theorem createCommit_identicalContent_nothingToCommit_witness :
    (createCommit stOneCommit reqIdentical).2 = .error (.gitFailure .nothingToCommit) ∧
    (createCommit stOneCommit reqIdentical).1.repo.commits = stOneCommit.repo.commits ∧
    (createCommit stOneCommit reqIdentical).1.dbCommits = stOneCommit.dbCommits ∧
    (createCommit stOneCommit reqIdentical).1.dbBranches = stOneCommit.dbBranches :=
  createCommit_identicalContent_nothingToCommit stOneCommit reqIdentical
    { name := "main", description := none, isDefault := true, lastCommitHash := some 0 }
    (by decide) (by decide) (by decide) (by decide)

/-! ## Anatomy of a successful CreateCommit -/

/-- The mapped file list a CreateCommit request hands to the Store. -/
def storeFiles (req : CommitRequest) : List CommitFile :=
  req.files.map (fun f => CommitFile.mk f.path (f.content.getD ""))

/-- The per-file change summaries computed from the request. -/
def changesOf (req : CommitRequest) : List FileChange :=
  (storeFiles req).map (fun f => FileChange.mk f.path (lineCount f.content) 0)

/-- Every successful `createCommit` went through the whole pipeline: the
repository was initialized (or lazily bootstrapped), the Store commit
succeeded, and the persisted record and state have exactly this shape. -/
lemma createCommit_ok_shape {st st' : AppState} {req : CommitRequest}
    {rec_ : CommitRecord} (h : createCommit st req = (st', .ok rec_)) :
    ∃ r1 r3 hsh p,
      (if st.repo.initialized then (st.repo, Except.ok ()) else svcInitRepo st.repo)
        = (r1, Except.ok ()) ∧
      svcCommit ((svcCheckoutBranch r1 req.branch).1) (storeFiles req)
        = (r3, Except.ok (hsh, p)) ∧
      rec_ = { hash := hsh, message := req.message, description := req.description,
               author := "user", branch := req.branch, parentHash := p,
               filesChanged := changesOf req,
               additions := (changesOf req).foldl (fun sum f => sum + f.additions) 0,
               deletions := 0 } ∧
      st' = { repo := r3,
              dbBranches := setLastCommit st.dbBranches req.branch hsh,
              dbCommits := rec_ :: st.dbCommits } := by
  unfold createCommit at h
  split at h
  · simp at h
  · split at h
    · simp at h
    · split at h
      · simp at h
      · rename_i br hbr
        split at h
        · rename_i r1 initRes heq
          split at h
          · simp at h
          · rename_i u
            simp only [] at h
            split at h
            · simp at h
            · rename_i r3 hsh p hsv
              simp only [Prod.mk.injEq, Except.ok.injEq] at h
              obtain ⟨hst, hrec⟩ := h
              refine ⟨r1, r3, hsh, p, ?_, ?_, ?_, ?_⟩
              · cases u; exact heq
              · exact hsv
              · exact hrec.symm
              · rw [← hst, ← hrec]

/-- In a successful Store commit the returned parent is the pre-state head. -/
lemma svcCommit_ok_parent {r r' : Repo} {files : List CommitFile} {hsh : Nat}
    {p : Option Nat} (h : svcCommit r files = (r', .ok (hsh, p))) :
    p = headHash r := by
  simp only [svcCommit] at h
  split at h
  · simp at h
  · simp only [Prod.mk.injEq, Except.ok.injEq] at h
    exact h.2.2.symm

lemma headHash_eq_of_commits {r r' : Repo} (h : r.commits = r'.commits) :
    headHash r = headHash r' := by
  unfold headHash
  rw [h]

/-! ## C4: parent of the first user commit after CreateNotebook -/

def reqFirst : CommitRequest :=
  { message := "first", description := none, branch := "main",
    files := [{ path := "notes.md", content := some "# Hi" }] }

def recFirst : CommitRecord :=
  { hash := 1, message := "first", description := none, author := "user",
    branch := "main", parentHash := some 0,
    filesChanged := [⟨"notes.md", 1, 0⟩], additions := 1, deletions := 0 }

/-- C4 counterexample: immediately after CreateNotebook — whose bootstrap
seeds the repository with a placeholder commit (hash `0`) — the first user
CreateCommit on `main` succeeds with a parent hash that is *present* (the
bootstrap commit's hash), not absent as claimed. -/
theorem firstCommit_parentAbsent_counterexample :
    (createCommit createNotebook.1 reqFirst).2 = .ok recFirst ∧
    recFirst.parentHash ≠ none :=
  ⟨by decide, by decide⟩

/-- C4 (amended): immediately after CreateNotebook succeeds, any first user
CreateCommit on the default branch that succeeds returns a commit whose
parent hash is present and equals the bootstrap placeholder commit's hash
(the repository head created by `initRepo`). -/
theorem firstCommit_parent_bootstrapHash
    (req : CommitRequest) (st' : AppState) (rec_ : CommitRecord)
    (h : createCommit createNotebook.1 req = (st', .ok rec_)) :
    rec_.parentHash = headHash createNotebook.1.repo ∧
    rec_.parentHash = some 0 ∧ rec_.parentHash ≠ none := by
  obtain ⟨r1, r3, hsh, p, hinit, hsv, hrec, -⟩ := createCommit_ok_shape h
  have hifeval :
      (if createNotebook.1.repo.initialized = true
        then (createNotebook.1.repo, Except.ok ())
        else svcInitRepo createNotebook.1.repo)
      = (createNotebook.1.repo, Except.ok ()) := by decide
  rw [hifeval] at hinit
  have hr1 : createNotebook.1.repo = r1 := congrArg Prod.fst hinit
  have hp : p = headHash ((svcCheckoutBranch r1 req.branch).1) := svcCommit_ok_parent hsv
  have hp2 : headHash ((svcCheckoutBranch r1 req.branch).1) = headHash r1 :=
    headHash_eq_of_commits (svcCheckoutBranch_commits r1 req.branch)
  have hparent : rec_.parentHash = headHash createNotebook.1.repo := by
    rw [hrec]
    show p = headHash createNotebook.1.repo
    rw [hp, hp2, ← hr1]
  refine ⟨hparent, ?_, ?_⟩
  · rw [hparent]
    decide
  · rw [hparent]
    decide

theorem firstCommit_parent_bootstrapHash_witness :
    recFirst.parentHash = headHash createNotebook.1.repo ∧
    recFirst.parentHash = some 0 ∧ recFirst.parentHash ≠ none :=
  firstCommit_parent_bootstrapHash reqFirst
    (createCommit createNotebook.1 reqFirst).1 recFirst (by decide)

/-! ## C5: per-file change summaries -/

/-- C5: every entry of the `filesChanged` list persisted by a successful
CreateCommit has `additions` equal to the number of newline-separated
segments of that file's content (JS `content.split('\n').length`, which is
`1` for a single-line file with no trailing newline) and `deletions` equal
to `0`. -/
theorem createCommit_filesChanged_lineCounts
    (st st' : AppState) (req : CommitRequest) (rec_ : CommitRecord)
    (h : createCommit st req = (st', .ok rec_)) :
    rec_ ∈ st'.dbCommits ∧
    ∀ fc ∈ rec_.filesChanged, ∃ f ∈ req.files,
      fc.path = f.path ∧
      fc.additions = (strSplit (f.content.getD "") '\n').length ∧
      fc.deletions = 0 := by
  obtain ⟨r1, r3, hsh, p, -, -, hrec, hst⟩ := createCommit_ok_shape h
  subst hst
  constructor
  · rw [hrec]
    exact List.mem_cons_self ..
  · intro fc hfc
    rw [hrec] at hfc
    simp only [changesOf, storeFiles, List.map_map, List.mem_map,
      Function.comp] at hfc
    obtain ⟨f, hf, hfc'⟩ := hfc
    exact ⟨f, hf, by rw [← hfc'], by rw [← hfc']; rfl, by rw [← hfc']⟩

def reqModify : CommitRequest :=
  { message := "more", description := none, branch := "main",
    files := [{ path := "notes.md", content := some "# Hi\nmore" }] }

def recMod : CommitRecord :=
  { hash := 1, message := "more", description := none, author := "user",
    branch := "main", parentHash := some 0,
    filesChanged := [⟨"notes.md", 2, 0⟩], additions := 2, deletions := 0 }

theorem createCommit_filesChanged_lineCounts_witness :
    recMod ∈ (createCommit stOneCommit reqModify).1.dbCommits ∧
    ∀ fc ∈ recMod.filesChanged, ∃ f ∈ reqModify.files,
      fc.path = f.path ∧
      fc.additions = (strSplit (f.content.getD "") '\n').length ∧
      fc.deletions = 0 :=
  createCommit_filesChanged_lineCounts stOneCommit
    (createCommit stOneCommit reqModify).1 reqModify recMod (by decide)

/-! ## C9: aggregate addition/deletion counts -/

lemma foldl_additions (l : List FileChange) (n : Nat) :
    l.foldl (fun sum f => sum + f.additions) n
      = n + (l.map (fun f => f.additions)).sum := by
  induction l generalizing n with
  | nil => simp
  | cons a t ih => simp [ih, Nat.add_assoc]

/-- C9: every Commit record persisted by a successful CreateCommit has its
aggregate `additions` equal to the sum of its `filesChanged` entries'
additions, and its aggregate `deletions` and every per-file `deletions`
equal to `0`. -/
theorem commitRecord_additions_invariant
    (st st' : AppState) (req : CommitRequest) (rec_ : CommitRecord)
    (h : createCommit st req = (st', .ok rec_)) :
    rec_.additions = (rec_.filesChanged.map (fun f => f.additions)).sum ∧
    rec_.deletions = 0 ∧
    ∀ fc ∈ rec_.filesChanged, fc.deletions = 0 := by
  obtain ⟨r1, r3, hsh, p, -, -, hrec, -⟩ := createCommit_ok_shape h
  subst hrec
  refine ⟨?_, rfl, ?_⟩
  · show (changesOf req).foldl (fun sum f => sum + f.additions) 0
      = ((changesOf req).map (fun f => f.additions)).sum
    rw [foldl_additions]
    simp
  · intro fc hfc
    simp only [changesOf, storeFiles, List.map_map, List.mem_map,
      Function.comp] at hfc
    obtain ⟨f, -, hfc'⟩ := hfc
    rw [← hfc']

def req9 : CommitRequest :=
  { message := "data", description := none, branch := "main",
    files := [{ path := "a.txt", content := some "x\ny\nz" },
              { path := "b.txt", content := some "w" }] }

def rec9 : CommitRecord :=
  { hash := 1, message := "data", description := none, author := "user",
    branch := "main", parentHash := some 0,
    filesChanged := [⟨"a.txt", 3, 0⟩, ⟨"b.txt", 1, 0⟩],
    additions := 4, deletions := 0 }

theorem commitRecord_additions_invariant_witness :
    rec9.additions = (rec9.filesChanged.map (fun f => f.additions)).sum ∧
    rec9.deletions = 0 ∧
    ∀ fc ∈ rec9.filesChanged, fc.deletions = 0 :=
  commitRecord_additions_invariant stOneCommit
    (createCommit stOneCommit req9).1 req9 rec9 (by decide)

/-! ## C2: CreateBranch on a repository with zero commits -/

/-- Bootstrapping a zero-commit repository seeds the placeholder commit
(hash `0`, no parent, the README tree). -/
lemma svcInitRepo_of_no_commits {r : Repo} (hzero : r.commits = []) :
    svcInitRepo r =
      ({ r with
          initialized := true
          current := "main"
          commits := [⟨0, none, [("README.md", readmeContent)]⟩]
          branches := addBranchName r.branches "main"
          working := setAssoc r.working "README.md" readmeContent }, .ok ()) := by
  unfold svcInitRepo svcCommit
  simp [headTree, headHash, hzero, lookupAssoc, setAssoc]

lemma mem_addBranchName (bs : List String) (n : String) :
    n ∈ addBranchName bs n := by
  unfold addBranchName
  split
  · rename_i h
    simpa using h
  · exact List.mem_cons_self ..

/-- A notebook exactly as CreateNotebook would leave it if bootstrap had not
yet produced any commit: default `main` Branch record, empty repository. -/
def stZeroCommits : AppState :=
  { repo := Repo.empty
    dbBranches := [{ name := "main", description := none,
                     isDefault := true, lastCommitHash := none }]
    dbCommits := [] }

/-- C2 counterexample: CreateBranch against a notebook whose repository has
zero commits does *not* fail with `NoCommitsYet` — the controller re-runs
`initRepo` (which seeds a commit) and then succeeds, persisting a new Branch
record. -/
theorem createBranch_zeroCommits_counterexample :
    (createBranchC stZeroCommits "feature" none none).2 =
      .ok { name := "feature", description := none, isDefault := false,
            lastCommitHash := none } ∧
    ((createBranchC stZeroCommits "feature" none none).1.dbBranches.map
      (fun b => b.name)) = ["main", "feature"] := by
  decide

/-- C2 (amended): a CreateBranch call on a notebook whose repository has zero
commits (with a fresh valid name and the default `main` source branch
record present) first bootstraps the repository — creating a seed commit —
and then *succeeds*: a Branch record is persisted carrying the source
record's `lastCommitHash`, and no `NoCommitsYet` error is surfaced. -/
theorem createBranch_zeroCommits_bootstraps
    (st : AppState) (name : String) (descr : Option String) (src : BranchRecord)
    (hname : (name == "") = false)
    (hnew : findBranchRecord st.dbBranches name = none)
    (hsrc : findBranchRecord st.dbBranches "main" = some src)
    (hzero : st.repo.commits = []) :
    (createBranchC st name none descr).2 =
      .ok { name := name, description := descr, isDefault := false,
            lastCommitHash := src.lastCommitHash } ∧
    (createBranchC st name none descr).1.dbBranches =
      st.dbBranches ++ [{ name := name, description := descr, isDefault := false,
                          lastCommitHash := src.lastCommitHash }] := by
  have hsel :
      (if !st.repo.initialized then svcInitRepo st.repo
       else if st.repo.commits.isEmpty || !st.repo.branches.contains "main" then
         svcInitRepo st.repo
       else (st.repo, Except.ok ())) = svcInitRepo st.repo := by
    cases hb : st.repo.initialized <;> simp [hzero]
  have hcb :
      svcCreateBranch
        ({ st.repo with
            initialized := true
            current := "main"
            commits := [⟨0, none, [("README.md", readmeContent)]⟩]
            branches := addBranchName st.repo.branches "main"
            working := setAssoc st.repo.working "README.md" readmeContent })
        name "main" =
      ({ st.repo with
          initialized := true
          current := name
          commits := [⟨0, none, [("README.md", readmeContent)]⟩]
          branches := addBranchName (addBranchName st.repo.branches "main") name
          working := setAssoc st.repo.working "README.md" readmeContent }, .ok ()) := by
    unfold svcCreateBranch
    simp [mem_addBranchName]
  simp only [createBranchC, hname, Bool.false_eq_true, if_false, hnew,
    Option.isSome_none, hsrc, hsel]
  simp only [svcInitRepo_of_no_commits hzero, hcb]
  refine ⟨?_, ?_⟩ <;> first | rfl | trivial

theorem createBranch_zeroCommits_bootstraps_witness :
    (createBranchC stZeroCommits "feature" none none).2 =
      .ok { name := "feature", description := none, isDefault := false,
            lastCommitHash :=
              (BranchRecord.mk "main" none true none).lastCommitHash } ∧
    (createBranchC stZeroCommits "feature" none none).1.dbBranches =
      stZeroCommits.dbBranches ++
        [{ name := "feature", description := none, isDefault := false,
           lastCommitHash :=
             (BranchRecord.mk "main" none true none).lastCommitHash }] :=
  createBranch_zeroCommits_bootstraps stZeroCommits "feature" none
    (BranchRecord.mk "main" none true none)
    (by decide) (by decide) (by decide) (by decide)

/-! ## C6: diff refs and first-commit diffs -/

lemma lookupAssoc_isSome_mem {t : List (String × String)} {p : String}
    (h : (lookupAssoc t p).isSome) : p ∈ t.map Prod.fst := by
  induction t with
  | nil => simp [lookupAssoc] at h
  | cons kv rest ih =>
    obtain ⟨k, v⟩ := kv
    by_cases hk : (k == p) = true
    · simp [beq_iff_eq.mp hk]
    · simp only [lookupAssoc, hk, Bool.false_eq_true, if_false] at h
      simp [ih h]

/-- Against the empty tree, every diff entry is an addition. -/
lemma diffEntry_emptyTree (tt : List (String × String)) (p : String) :
    diffEntry [] tt p
      = (match lookupAssoc tt p with
         | none => none
         | some _ => some ⟨p, DiffKind.added⟩) := by
  unfold diffEntry
  cases lookupAssoc tt p <;> rfl

/-- C6: GetCommitDiff computes the diff between the commit's parent hash and
the commit's own hash when a parent is present, and between the well-known
empty-tree reference and the commit's hash when absent — in which case every
diff entry is a pure addition, and every file of the commit's change-summary
present in the commit's tree is found in the diff as a pure addition chunk
(the one the response attaches to that file). -/
theorem getCommitDiff_refs_firstCommit_allAdditions
    (st : AppState) (hsh : Nat) (rec_ : CommitRecord)
    (hfind : st.dbCommits.find? (fun c => c.hash == hsh) = some rec_) :
    ∃ diff files,
      getCommitDiffC st hsh = .ok (diff, rec_, files) ∧
      diff = (match svcGetDiff st.repo
                (match rec_.parentHash with
                  | some p => GitRef.commit p
                  | none => GitRef.emptyTree)
                (GitRef.commit hsh) with
              | .ok d => d
              | .error _ => []) ∧
      files = rec_.filesChanged.map (fun fc =>
        FileDiffEntry.mk fc.path fc.additions fc.deletions
          (diff.find? (fun e => e.path == fc.path))) ∧
      (rec_.parentHash = none →
        (∀ e ∈ diff, e.kind = DiffKind.added) ∧
        ∀ fc ∈ rec_.filesChanged, ∀ tree,
          treeOfRef st.repo (GitRef.commit hsh) = some tree →
          (lookupAssoc tree fc.path).isSome →
          ∃ e, diff.find? (fun d => d.path == fc.path) = some e ∧
            e.path = fc.path ∧ e.kind = DiffKind.added) := by
  refine ⟨_, _, ?_, rfl, rfl, ?_⟩
  · unfold getCommitDiffC
    rw [hfind]
  · intro hpar
    rw [hpar]
    cases htt : treeOfRef st.repo (GitRef.commit hsh) with
    | none =>
      constructor
      · intro e he
        simp [svcGetDiff, htt] at he
      · intro fc hfc tree htree
        exact fun _ => Option.noConfusion htree
    | some tt =>
      have hdiff : svcGetDiff st.repo GitRef.emptyTree (GitRef.commit hsh)
          = .ok ((tt.map Prod.fst).filterMap (diffEntry [] tt)) := by
        unfold svcGetDiff
        rw [show treeOfRef st.repo GitRef.emptyTree = some [] from rfl, htt]
        simp
      rw [hdiff]
      constructor
      · intro e he
        obtain ⟨p, hp, hde⟩ := List.mem_filterMap.mp he
        rw [diffEntry_emptyTree] at hde
        cases hlk : lookupAssoc tt p with
        | none => rw [hlk] at hde; simp at hde
        | some v =>
          rw [hlk] at hde
          simp only [Option.some.injEq] at hde
          rw [← hde]
      · intro fc hfc tree htree hsome
        injection htree with htteq
        subst htteq
        have hmem : fc.path ∈ tt.map Prod.fst := lookupAssoc_isSome_mem hsome
        obtain ⟨v, hv⟩ := Option.isSome_iff_exists.mp hsome
        have hentry : diffEntry [] tt fc.path = some ⟨fc.path, DiffKind.added⟩ := by
          rw [diffEntry_emptyTree, hv]
        have hmemd : (⟨fc.path, DiffKind.added⟩ : FileDiff)
            ∈ (tt.map Prod.fst).filterMap (diffEntry [] tt) :=
          List.mem_filterMap.mpr ⟨fc.path, hmem, hentry⟩
        have hfound : (((tt.map Prod.fst).filterMap (diffEntry [] tt)).find?
            (fun d => d.path == fc.path)).isSome := by
          rw [List.find?_isSome]
          exact ⟨_, hmemd, by simp⟩
        obtain ⟨e, he⟩ := Option.isSome_iff_exists.mp hfound
        refine ⟨e, he, ?_, ?_⟩
        · have := List.find?_some he
          simpa using this
        · obtain ⟨p, hp, hde⟩ := List.mem_filterMap.mp (List.mem_of_find?_eq_some he)
          rw [diffEntry_emptyTree] at hde
          cases hlk : lookupAssoc tt p with
          | none => rw [hlk] at hde; simp at hde
          | some v' =>
            rw [hlk] at hde
            simp only [Option.some.injEq] at hde
            rw [← hde]

/-- Concrete instantiation of
`getCommitDiff_refs_firstCommit_allAdditions`: a parentless commit record
over a one-commit repository. -/
def recDiffW : CommitRecord :=
  { hash := 0, message := "first", description := none, author := "user",
    branch := "main", parentHash := none,
    filesChanged := [⟨"notes.md", 1, 0⟩], additions := 1, deletions := 0 }

def stDiffW : AppState :=
  { repo := repoOneCommit
    dbBranches := [{ name := "main", description := none,
                     isDefault := true, lastCommitHash := some 0 }]
    dbCommits := [recDiffW] }

theorem getCommitDiff_refs_firstCommit_allAdditions_witness :
    ∃ diff files,
      getCommitDiffC stDiffW 0 = .ok (diff, recDiffW, files) ∧
      diff = (match svcGetDiff stDiffW.repo
                (match recDiffW.parentHash with
                  | some p => GitRef.commit p
                  | none => GitRef.emptyTree)
                (GitRef.commit 0) with
              | .ok d => d
              | .error _ => []) ∧
      files = recDiffW.filesChanged.map (fun fc =>
        FileDiffEntry.mk fc.path fc.additions fc.deletions
          (diff.find? (fun e => e.path == fc.path))) ∧
      (recDiffW.parentHash = none →
        (∀ e ∈ diff, e.kind = DiffKind.added) ∧
        ∀ fc ∈ recDiffW.filesChanged, ∀ tree,
          treeOfRef stDiffW.repo (GitRef.commit 0) = some tree →
          (lookupAssoc tree fc.path).isSome →
          ∃ e, diff.find? (fun d => d.path == fc.path) = some e ∧
            e.path = fc.path ∧ e.kind = DiffKind.added) :=
  getCommitDiff_refs_firstCommit_allAdditions stDiffW 0 recDiffW (by decide)

/-! ## C7: the per-file diff splitter -/

/-- Folding the scanner over the line list equals saving the current segment
extended by the pre-header lines, then folding the segment view of the
remaining lines. -/
lemma parse_fold_eq (lines : List String) :
    ∀ cf cd fm,
    saveCurrent (lines.foldl parseStep ⟨cf, cd, fm⟩)
      = (segmentsOf (lines.dropWhile (fun l => !isHeader l))).foldl
          (fun m s => saveSeg m s.1 s.2)
          (saveSeg fm cf (cd ++ lines.takeWhile (fun l => !isHeader l))) := by
  induction lines with
  | nil =>
    intro cf cd fm
    simp [segmentsOf]
    rfl
  | cons l rest ih =>
    intro cf cd fm
    by_cases hl : isHeader l
    · rw [List.takeWhile_cons_of_neg (by simp [hl]),
        List.dropWhile_cons_of_neg (by simp [hl])]
      have hstep : parseStep ⟨cf, cd, fm⟩ l
          = ⟨(extractDiffPath l).getD "", [l], saveCurrent ⟨cf, cd, fm⟩⟩ := by
        simp [parseStep, hl]
      rw [List.foldl_cons, hstep, ih]
      have hseg : segmentsOf (l :: rest)
          = ((extractDiffPath l).getD "", l :: rest.takeWhile (fun x => !isHeader x))
            :: segmentsOf (rest.dropWhile (fun x => !isHeader x)) := by
        rw [segmentsOf]
        simp [hl]
      rw [hseg, List.foldl_cons, List.append_nil]
      rfl
    · rw [List.takeWhile_cons_of_pos (by simp [hl]),
        List.dropWhile_cons_of_pos (by simp [hl])]
      by_cases hcf : cf = ""
      · have hstep : parseStep ⟨cf, cd, fm⟩ l = ⟨cf, cd, fm⟩ := by
          simp [parseStep, hl, hcf]
        rw [List.foldl_cons, hstep, ih]
        subst hcf
        rfl
      · have hstep : parseStep ⟨cf, cd, fm⟩ l = ⟨cf, cd ++ [l], fm⟩ := by
          simp [parseStep, hl, hcf]
        rw [List.foldl_cons, hstep, ih, List.append_assoc, List.singleton_append]

/-- Pre-header lines are dropped by the segment view. -/
lemma segmentsOf_dropWhile (lines : List String) :
    segmentsOf (lines.dropWhile (fun l => !isHeader l)) = segmentsOf lines := by
  induction lines with
  | nil => rfl
  | cons l rest ih =>
    by_cases hl : isHeader l
    · rw [List.dropWhile_cons_of_neg (by simp [hl])]
    · rw [List.dropWhile_cons_of_pos (by simp [hl]), ih]
      rw [segmentsOf]
      simp [hl]

/-- C7: `parseDiffByFile` returns the empty map on empty diff text, and on
any diff text it equals the header-cut segment view: the line list is cut at
each `diff --git` header, each segment is keyed by the path extracted from
the `a/<path>` portion of its header line, subsequent non-header lines
belong to the open segment, and lines before any recognized header are
dropped. -/
theorem parseDiffByFile_eq_segments (s : String) :
    parseDiffByFile s = parseDiffSpec s ∧ parseDiffByFile "" = [] := by
  constructor
  · unfold parseDiffByFile parseDiffSpec
    cases hs : s == ""
    · simp only [Bool.false_eq_true, if_false]
      rw [parse_fold_eq, segmentsOf_dropWhile]
      rfl
    · simp
  · rfl

/-! ## C8: the file-tree fold -/

lemma FileTreeItem.eta (it : FileTreeItem) :
    FileTreeItem.mk it.name it.path it.type it.children = it := by
  cases it
  rfl

lemma findName_cons_pos {it : FileTreeItem} {rest : List FileTreeItem}
    {part : String} (hb : (it.name == part) = true) :
    findName (it :: rest) part = some it := by
  unfold findName
  exact List.find?_cons_of_pos _ hb

lemma findName_cons_neg {it : FileTreeItem} {rest : List FileTreeItem}
    {part : String} (hb : (it.name == part) = false) :
    findName (it :: rest) part = findName rest part := by
  unfold findName
  exact List.find?_cons_of_neg _ (by simp [hb])

lemma findName_append_left {level : List FileTreeItem} {part : String}
    {y : FileTreeItem} (h : findName level part = some y) (x : FileTreeItem) :
    findName (level ++ [x]) part = some y := by
  induction level with
  | nil => simp [findName] at h
  | cons it rest ih =>
    cases hb : (it.name == part) with
    | true =>
      rw [findName_cons_pos hb] at h
      rw [List.cons_append, findName_cons_pos hb]
      exact h
    | false =>
      rw [findName_cons_neg hb] at h
      rw [List.cons_append, findName_cons_neg hb]
      exact ih h

lemma findName_append_of_none {level : List FileTreeItem} {part : String}
    (h : findName level part = none) {x : FileTreeItem} (hx : x.name = part) :
    findName (level ++ [x]) part = some x := by
  induction level with
  | nil => exact findName_cons_pos (by simp [hx])
  | cons it rest ih =>
    cases hb : (it.name == part) with
    | true =>
      rw [findName_cons_pos hb] at h
      exact Option.noConfusion h
    | false =>
      rw [findName_cons_neg hb] at h
      rw [List.cons_append, findName_cons_neg hb]
      exact ih h

lemma findName_replaceName_self {level : List FileTreeItem} {part : String}
    {y newIt : FileTreeItem} (h : findName level part = some y)
    (hn : newIt.name = part) :
    findName (replaceName level part newIt) part = some newIt := by
  induction level with
  | nil => simp [findName] at h
  | cons it rest ih =>
    cases hb : (it.name == part) with
    | true =>
      simp only [replaceName, hb, if_true]
      exact findName_cons_pos (by simp [hn])
    | false =>
      rw [findName_cons_neg hb] at h
      simp only [replaceName, hb, Bool.false_eq_true, if_false]
      rw [findName_cons_neg hb]
      exact ih h

lemma findName_replaceName_ne {level : List FileTreeItem} {part q : String}
    {newIt : FileTreeItem} (hn : newIt.name = part) (hne : ¬ part = q) :
    findName (replaceName level part newIt) q = findName level q := by
  induction level with
  | nil => rfl
  | cons it rest ih =>
    cases hb : (it.name == part) with
    | true =>
      simp only [replaceName, hb, if_true]
      have hitq : (it.name == q) = false := by
        simp only [beq_eq_false_iff_ne, ne_eq]
        rw [beq_iff_eq.mp hb]
        exact hne
      have hnq : (newIt.name == q) = false := by
        simp only [beq_eq_false_iff_ne, ne_eq]
        rw [hn]
        exact hne
      rw [findName_cons_neg hnq, findName_cons_neg hitq]
    | false =>
      simp only [replaceName, hb, Bool.false_eq_true, if_false]
      cases hq : (it.name == q) with
      | true => rw [findName_cons_pos hq, findName_cons_pos hq]
      | false =>
        rw [findName_cons_neg hq, findName_cons_neg hq]
        exact ih

lemma replaceName_self {level : List FileTreeItem} {part : String}
    {y : FileTreeItem} (h : findName level part = some y) :
    replaceName level part y = level := by
  induction level with
  | nil => rfl
  | cons it rest ih =>
    cases hb : (it.name == part) with
    | true =>
      rw [findName_cons_pos hb] at h
      injection h with hy
      subst hy
      simp [replaceName, hb]
    | false =>
      rw [findName_cons_neg hb] at h
      simp [replaceName, hb, ih h]

/-- A level already contains the chain of segments `parts`: re-inserting it
changes nothing.  Mirrors the traversal of `insertParts` (including the
fall-through at an existing child without a children array). -/
def Contains : List FileTreeItem → List String → Prop
  | _, [] => True
  | level, part :: rest =>
    match findName level part with
    | none => False
    | some existing =>
      if rest.isEmpty then True
      else
        match existing.children with
        | some cs => Contains cs rest
        | none => Contains level rest

lemma findName_some_name {level : List FileTreeItem} {part : String}
    {ex : FileTreeItem} (h : findName level part = some ex) : ex.name = part := by
  have := List.find?_some h
  exact beq_iff_eq.mp this

/-- Appending an item to a level preserves containment. -/
lemma Contains_append (parts : List String) :
    ∀ (level : List FileTreeItem) (x : FileTreeItem),
      Contains level parts → Contains (level ++ [x]) parts := by
  induction parts with
  | nil =>
    intro level x h
    simp [Contains]
  | cons part rest ih =>
    intro level x h
    cases hf : findName level part with
    | none => simp [Contains, hf] at h
    | some ex =>
      have hf' := findName_append_left hf x
      simp only [Contains, hf] at h
      simp only [Contains, hf']
      cases hre : rest.isEmpty with
      | true => simp [hre]
      | false =>
        rw [hre] at h
        simp only [Bool.false_eq_true, if_false] at h ⊢
        cases hch : ex.children with
        | some cs => rw [hch] at h; exact h
        | none => rw [hch] at h; exact ih level x h

/-- Replacing a directory's children with a containment-preserving update
preserves containment of the whole level. -/
lemma Contains_replaceName (parts : List String) :
    ∀ (level : List FileTreeItem) (p' : String) (ex : FileTreeItem)
      (cs cs' : List FileTreeItem),
      findName level p' = some ex → ex.children = some cs →
      (∀ qarts, Contains cs qarts → Contains cs' qarts) →
      Contains level parts →
      Contains (replaceName level p'
        (FileTreeItem.mk ex.name ex.path ex.type (some cs'))) parts := by
  induction parts with
  | nil =>
    intro level p' ex cs cs' hf hch htrans h
    simp [Contains]
  | cons part rest ihp =>
    intro level p' ex cs cs' hf hch htrans h
    have hnn : (FileTreeItem.mk ex.name ex.path ex.type (some cs')).name = p' := by
      show ex.name = p'
      exact findName_some_name hf
    cases hfq : findName level part with
    | none => simp [Contains, hfq] at h
    | some exq =>
      simp only [Contains, hfq] at h
      by_cases hpq : p' = part
      · subst hpq
        have hexq : exq = ex := by
          rw [hf] at hfq
          injection hfq with he
          exact he.symm
        subst hexq
        have hf2 := findName_replaceName_self hf hnn
        simp only [Contains, hf2]
        cases hre : rest.isEmpty with
        | true => simp [hre]
        | false =>
          rw [hre] at h
          simp only [Bool.false_eq_true, if_false] at h ⊢
          rw [hch] at h
          exact htrans rest h
      · have hf2 : findName (replaceName level p'
            (FileTreeItem.mk ex.name ex.path ex.type (some cs'))) part
            = some exq := by
          rw [findName_replaceName_ne hnn hpq]
          exact hfq
        simp only [Contains, hf2]
        cases hre : rest.isEmpty with
        | true => simp [hre]
        | false =>
          rw [hre] at h
          simp only [Bool.false_eq_true, if_false] at h ⊢
          cases hch2 : exq.children with
          | some cs0 => rw [hch2] at h; exact h
          | none =>
            rw [hch2] at h
            exact ihp level p' ex cs cs' hf hch htrans h

/-- Inserting any path preserves containment of already-contained paths. -/
lemma Contains_insertParts (parts' : List String) :
    ∀ (level : List FileTreeItem) (done parts : List String),
      Contains level parts → Contains (insertParts level done parts') parts := by
  induction parts' with
  | nil =>
    intro level done parts h
    exact h
  | cons p' rest' ih =>
    intro level done parts h
    cases hf : findName level p' with
    | none =>
      simp only [insertParts, hf]
      cases hre : rest'.isEmpty with
      | true =>
        simp only [hre, if_true]
        exact Contains_append parts level _ h
      | false =>
        simp only [hre, Bool.false_eq_true, if_false]
        exact Contains_append parts level _ h
    | some ex =>
      simp only [insertParts, hf]
      cases hre : rest'.isEmpty with
      | true =>
        simp only [hre, if_true]
        exact h
      | false =>
        simp only [hre, Bool.false_eq_true, if_false]
        cases hch : ex.children with
        | some cs =>
          simp only [hch]
          exact Contains_replaceName parts level p' ex cs _ hf hch
            (fun qarts hq => ih cs (done ++ [p']) qarts hq) h
        | none =>
          simp only [hch]
          exact ih level (done ++ [p']) parts h

/-- Inserting never disturbs an existing childless (leaf) entry. -/
lemma findName_insertParts_childless (parts' : List String) :
    ∀ (level : List FileTreeItem) (done : List String) (part : String)
      (ex : FileTreeItem),
      findName level part = some ex → ex.children = none →
      findName (insertParts level done parts') part = some ex := by
  induction parts' with
  | nil =>
    intro level done part ex hf hch
    exact hf
  | cons p' rest' ih =>
    intro level done part ex hf hch
    cases hf' : findName level p' with
    | none =>
      simp only [insertParts, hf']
      cases hre : rest'.isEmpty with
      | true =>
        simp only [hre, if_true]
        exact findName_append_left hf _
      | false =>
        simp only [hre, Bool.false_eq_true, if_false]
        exact findName_append_left hf _
    | some e' =>
      simp only [insertParts, hf']
      cases hre : rest'.isEmpty with
      | true =>
        simp only [hre, if_true]
        exact hf
      | false =>
        simp only [hre, Bool.false_eq_true, if_false]
        cases hch' : e'.children with
        | none =>
          simp only [hch']
          exact ih level (done ++ [p']) part ex hf hch
        | some cs =>
          simp only [hch']
          by_cases hpq : p' = part
          · subst hpq
            rw [hf] at hf'
            injection hf' with he
            rw [← he] at hch'
            rw [hch] at hch'
            exact Option.noConfusion hch'
          · have hnn' : (FileTreeItem.mk e'.name e'.path e'.type
                (some (insertParts cs (done ++ [p']) rest'))).name = p' := by
              show e'.name = p'
              exact findName_some_name hf'
            rw [findName_replaceName_ne hnn' hpq]
            exact hf

/-- Insertion establishes containment of the inserted path. -/
lemma Contains_insertParts_self (parts : List String) :
    ∀ (level : List FileTreeItem) (done : List String),
      Contains (insertParts level done parts) parts := by
  induction parts with
  | nil =>
    intro level done
    simp [Contains]
  | cons part rest ihp =>
    intro level done
    cases hf : findName level part with
    | none =>
      cases hre : rest.isEmpty with
      | true =>
        simp only [insertParts, hf, hre, if_true]
        have hfind := findName_append_of_none hf
          (x := FileTreeItem.mk part (joinSep "/" (done ++ [part])) NodeType.file none)
          rfl
        simp [Contains, hfind, hre]
      | false =>
        simp only [insertParts, hf, hre, Bool.false_eq_true, if_false]
        have hfind := findName_append_of_none hf
          (x := FileTreeItem.mk part (joinSep "/" (done ++ [part])) NodeType.directory
            (some (insertParts [] (done ++ [part]) rest)))
          rfl
        simp only [Contains, hfind, hre, Bool.false_eq_true, if_false,
          FileTreeItem.children]
        exact ihp [] (done ++ [part])
    | some ex =>
      cases hre : rest.isEmpty with
      | true =>
        simp only [insertParts, hf, hre, if_true]
        simp [Contains, hf, hre]
      | false =>
        cases hch : ex.children with
        | none =>
          simp only [insertParts, hf, hre, Bool.false_eq_true, if_false, hch]
          have hf2 := findName_insertParts_childless rest level (done ++ [part])
            part ex hf hch
          simp only [Contains, hf2, hre, Bool.false_eq_true, if_false, hch]
          exact ihp level (done ++ [part])
        | some cs =>
          simp only [insertParts, hf, hre, Bool.false_eq_true, if_false, hch]
          have hnn : (FileTreeItem.mk ex.name ex.path ex.type
              (some (insertParts cs (done ++ [part]) rest))).name = part := by
            show ex.name = part
            exact findName_some_name hf
          have hf2 := findName_replaceName_self hf hnn
          simp only [Contains, hf2, hre, Bool.false_eq_true, if_false,
            FileTreeItem.children]
          exact ihp cs (done ++ [part])

/-- Inserting an already-contained path is a no-op. -/
lemma insertParts_of_contains (parts : List String) :
    ∀ (level : List FileTreeItem) (done : List String),
      Contains level parts → insertParts level done parts = level := by
  induction parts with
  | nil =>
    intro level done _
    rfl
  | cons part rest ihp =>
    intro level done h
    cases hf : findName level part with
    | none => simp [Contains, hf] at h
    | some ex =>
      simp only [Contains, hf] at h
      cases hre : rest.isEmpty with
      | true => simp [insertParts, hf, hre]
      | false =>
        rw [hre] at h
        simp only [Bool.false_eq_true, if_false] at h
        cases hch : ex.children with
        | some cs =>
          rw [hch] at h
          simp only [insertParts, hf, hre, Bool.false_eq_true, if_false, hch]
          rw [ihp cs (done ++ [part]) h]
          have hback : FileTreeItem.mk ex.name ex.path ex.type (some cs) = ex := by
            rw [← hch]
            exact FileTreeItem.eta ex
          rw [hback]
          exact replaceName_self hf
        | none =>
          rw [hch] at h
          simp only [insertParts, hf, hre, Bool.false_eq_true, if_false, hch]
          exact ihp level (done ++ [part]) h

lemma Contains_foldl (ps : List String) :
    ∀ (t : List FileTreeItem) (parts : List String),
      Contains t parts → Contains (ps.foldl insertPathStep t) parts := by
  induction ps with
  | nil =>
    intro t parts h
    exact h
  | cons p ps' ih =>
    intro t parts h
    exact ih _ parts (Contains_insertParts (splitPath p) t [] parts h)

lemma Contains_buildTree_mem (ps : List String) :
    ∀ (t : List FileTreeItem) (p : String), p ∈ ps →
      Contains (ps.foldl insertPathStep t) (splitPath p) := by
  induction ps with
  | nil =>
    intro t p h
    exact absurd h (List.not_mem_nil p)
  | cons q ps' ih =>
    intro t p hmem
    rcases List.mem_cons.mp hmem with rfl | hmem'
    · exact Contains_foldl ps' _ _ (Contains_insertParts_self (splitPath p) t [])
    · exact ih _ p hmem'

lemma foldl_insert_of_contains (ps : List String) :
    ∀ (t : List FileTreeItem), (∀ p ∈ ps, Contains t (splitPath p)) →
      ps.foldl insertPathStep t = t := by
  induction ps with
  | nil =>
    intro t _
    rfl
  | cons q ps' ih =>
    intro t h
    have hq : insertPathStep t q = t :=
      insertParts_of_contains (splitPath q) t [] (h q (List.mem_cons_self ..))
    rw [List.foldl_cons, hq]
    exact ih t (fun p hp => h p (List.mem_cons_of_mem _ hp))

/-! ### Name-deduplication invariant -/

/-- Every level of the tree (recursively) has pairwise-distinct node names:
the "deduplicated by name at each level" shape. -/
inductive LevelNodup : List FileTreeItem → Prop where
  | node : ∀ level, (level.map FileTreeItem.name).Nodup →
      (∀ it ∈ level, ∀ cs, it.children = some cs → LevelNodup cs) →
      LevelNodup level

lemma LevelNodup_nil : LevelNodup [] := by
  refine .node [] (by simp) ?_
  intro it hit
  exact absurd hit (List.not_mem_nil it)

lemma findName_none_not_mem {level : List FileTreeItem} {part : String}
    (hf : findName level part = none) :
    part ∉ level.map FileTreeItem.name := by
  intro hmem
  obtain ⟨it, hit, hname⟩ := List.mem_map.mp hmem
  have hall := List.find?_eq_none.mp hf it hit
  rw [hname] at hall
  simp at hall

lemma replaceName_map_name {level : List FileTreeItem} {part : String}
    {newIt : FileTreeItem} (hn : newIt.name = part) :
    (replaceName level part newIt).map FileTreeItem.name
      = level.map FileTreeItem.name := by
  induction level with
  | nil => rfl
  | cons it rest ih =>
    cases hb : (it.name == part) with
    | true =>
      simp only [replaceName, hb, if_true, List.map_cons]
      rw [hn, beq_iff_eq.mp hb]
    | false =>
      simp only [replaceName, hb, Bool.false_eq_true, if_false, List.map_cons]
      rw [ih]

lemma mem_replaceName {level : List FileTreeItem} {part : String}
    {newIt it' : FileTreeItem} (h : it' ∈ replaceName level part newIt) :
    it' = newIt ∨ it' ∈ level := by
  induction level with
  | nil => exact absurd h (List.not_mem_nil it')
  | cons it rest ih =>
    by_cases hb : (it.name == part) = true
    · simp only [replaceName, hb, if_true] at h
      rcases List.mem_cons.mp h with rfl | hm
      · exact Or.inl rfl
      · exact Or.inr (List.mem_cons_of_mem _ hm)
    · simp only [replaceName, hb, Bool.false_eq_true, if_false] at h
      rcases List.mem_cons.mp h with rfl | hm
      · exact Or.inr (List.mem_cons_self ..)
      · rcases ih hm with h1 | h2
        · exact Or.inl h1
        · exact Or.inr (List.mem_cons_of_mem _ h2)

/-- Insertion preserves the recursive name-deduplication invariant. -/
lemma LevelNodup_insertParts (parts : List String) :
    ∀ (level : List FileTreeItem) (done : List String),
      LevelNodup level → LevelNodup (insertParts level done parts) := by
  induction parts with
  | nil =>
    intro level done h
    exact h
  | cons part rest ihp =>
    intro level done h
    obtain ⟨_, hnames, hkids⟩ := h
    cases hf : findName level part with
    | none =>
      cases hre : rest.isEmpty with
      | true =>
        simp only [insertParts, hf, hre, if_true]
        refine .node _ ?_ ?_
        · rw [List.map_append]
          rw [List.nodup_append]
          refine ⟨hnames, by simp, ?_⟩
          intro a ha hb
          simp only [List.map_cons, List.map_nil, List.mem_cons,
            List.not_mem_nil, or_false] at hb
          subst hb
          exact findName_none_not_mem hf ha
        · intro it hit cs hcs
          rcases List.mem_append.mp hit with hl | hr
          · exact hkids it hl cs hcs
          · simp only [List.mem_cons, List.not_mem_nil, or_false] at hr
            subst hr
            exact absurd hcs (by simp [FileTreeItem.children])
      | false =>
        simp only [insertParts, hf, hre, Bool.false_eq_true, if_false]
        refine .node _ ?_ ?_
        · rw [List.map_append]
          rw [List.nodup_append]
          refine ⟨hnames, by simp, ?_⟩
          intro a ha hb
          simp only [List.map_cons, List.map_nil, List.mem_cons,
            List.not_mem_nil, or_false] at hb
          subst hb
          exact findName_none_not_mem hf ha
        · intro it hit cs hcs
          rcases List.mem_append.mp hit with hl | hr
          · exact hkids it hl cs hcs
          · simp only [List.mem_cons, List.not_mem_nil, or_false] at hr
            subst hr
            simp only [FileTreeItem.children, Option.some.injEq] at hcs
            rw [← hcs]
            exact ihp [] (done ++ [part]) LevelNodup_nil
    | some ex =>
      cases hre : rest.isEmpty with
      | true =>
        simp only [insertParts, hf, hre, if_true]
        exact .node _ hnames hkids
      | false =>
        cases hch : ex.children with
        | none =>
          simp only [insertParts, hf, hre, Bool.false_eq_true, if_false, hch]
          exact ihp level (done ++ [part]) (.node _ hnames hkids)
        | some cs =>
          simp only [insertParts, hf, hre, Bool.false_eq_true, if_false, hch]
          have hnn : (FileTreeItem.mk ex.name ex.path ex.type
              (some (insertParts cs (done ++ [part]) rest))).name = part := by
            show ex.name = part
            exact findName_some_name hf
          refine .node _ ?_ ?_
          · rw [replaceName_map_name hnn]
            exact hnames
          · intro it hit cs0 hcs0
            rcases mem_replaceName hit with rfl | hm
            · simp only [FileTreeItem.children, Option.some.injEq] at hcs0
              rw [← hcs0]
              have hexmem : ex ∈ level := List.mem_of_find?_eq_some hf
              exact ihp cs (done ++ [part]) (hkids ex hexmem cs hch)
            · exact hkids it hm cs0 hcs0

lemma LevelNodup_foldl (ps : List String) :
    ∀ (t : List FileTreeItem), LevelNodup t →
      LevelNodup (ps.foldl insertPathStep t) := by
  induction ps with
  | nil =>
    intro t h
    exact h
  | cons p ps' ih =>
    intro t h
    exact ih _ (LevelNodup_insertParts (splitPath p) t [] h)

/-- C8: `BuildTree` is deterministic (the same path list always yields the
same tree), idempotent (re-running the fold over the same list on its own
output changes nothing — each path is found already present, deduplicated by
name at each level), and every level of the resulting tree has
pairwise-distinct node names. -/
theorem buildTree_deterministic_idempotent (paths : List String) :
    buildTree paths = buildTree paths ∧
    List.foldl insertPathStep (buildTree paths) paths = buildTree paths ∧
    LevelNodup (buildTree paths) := by
  refine ⟨rfl, ?_, ?_⟩
  · exact foldl_insert_of_contains paths (buildTree paths)
      (fun p hp => Contains_buildTree_mem paths [] p hp)
  · exact LevelNodup_foldl paths [] LevelNodup_nil

end NoteVerse
